import Mathlib

set_option maxRecDepth 1000000

/-
Verification of scripts/prepare_publish.py.

The script rewrites Cargo.toml in place:
  1. re.sub removes every non-overlapping match of
     # [^\n]*ELARA[^\n]*\n(?:#[^\n]*\n)*elara-transport = \x7b path = "elara/crates/elara-transport", optional = true \x7d\s*\n
  2. str.replace turns the feature line into an empty list,
  3. str.replace drops elara-transport from the aggregate feature line,
  4. if "elara-transport = []" is absent it is inserted after the aggregate line,
then writes the buffer back and prints a confirmation line.

Manifest content is embedded as List Char.  The recursive scanners are
fuel-based (fuel bounded by the input length, which every step strictly
decreases), so all definitions compute by kernel reduction.
-/

/-- Models the re module's class \s for text patterns: the six ASCII
whitespace characters plus the Unicode whitespace characters that the re
module accepts for str patterns. -/
def isWsChar (c : Char) : Bool :=
  c = ' ' || c = '\t' || c = '\n' || c = '\r' || c = '\x0b' || c = '\x0c' ||
  c = '\x1c' || c = '\x1d' || c = '\x1e' || c = '\x1f' || c = '\x85' ||
  c = '\xa0' || c.toNat = 0x1680 || (0x2000 ≤ c.toNat && c.toNat ≤ 0x200a) ||
  c.toNat = 0x2028 || c.toNat = 0x2029 || c.toNat = 0x202f || c.toNat = 0x205f || c.toNat = 0x3000

/-- List-of-chars prefix test (the anchor step of the str.replace scan). -/
def isPrefixOfCL : List Char → List Char → Bool
  | [], _ => true
  | _ :: _, [] => false
  | p :: ps, c :: cs => p = c && isPrefixOfCL ps cs

/-- Models the Python substring test (the in operator): does p occur
contiguously inside s? -/
def occursB (p : List Char) : List Char → Bool
  | [] => p.isEmpty
  | c :: cs => isPrefixOfCL p (c :: cs) || occursB p cs

/-- Consume one line: the characters before the first newline and the rest
after it; none when the text holds no newline.  Models a [^\n]* segment that
must be closed by \n. -/
def splitLine : List Char → Option (List Char × List Char)
  | [] => none
  | c :: cs =>
    if c = '\n' then some ([], cs)
    else
      match splitLine cs with
      | some (l, r) => some (c :: l, r)
      | none => none

/-- Fuel-bounded loop of the regex piece (?:#[^\n]*\n)*: consume the maximal
run of newline-terminated lines that start with a hash. -/
def dropCommentLinesAux : Nat → List Char → List Char
  | 0, s => s
  | fuel + 1, s =>
    match s with
    | [] => []
    | c :: cs =>
      if c = '#' then
        match splitLine cs with
        | some (_, r) => dropCommentLinesAux fuel r
        | none => c :: cs
      else c :: cs

/-- The comment-line loop with enough fuel for its input. -/
def dropCommentLines (s : List Char) : List Char :=
  dropCommentLinesAux s.length s

/-- Consume an exact literal; some remainder on success. -/
def dropPrefixCL : List Char → List Char → Option (List Char)
  | [], s => some s
  | _ :: _, [] => none
  | p :: ps, c :: cs => if p = c then dropPrefixCL ps cs else none

/-- Models the greedy regex tail \s*\n with backtracking: consume the maximal
whitespace run up to and including its last newline; none when the
whitespace run reaching from here holds no newline. -/
def dropWsNl : List Char → Option (List Char)
  | [] => none
  | c :: cs =>
    if isWsChar c then
      match dropWsNl cs with
      | some r => some r
      | none => if c = '\n' then some cs else none
    else none

/-- The token the first comment line must contain. -/
def elaraTok : List Char := ("ELARA").data

/-- The dependency-declaration line of the regex, after its first
character. -/
def depTail : List Char :=
  ("lara-transport = \x7b path = \"elara/crates/elara-transport\", optional = true \x7d").data

/-- The exact dependency-declaration line the regex requires. -/
def depLine : List Char := 'e' :: depTail

/-- Attempt the block regex at the head of s.  Returns the remainder after
the match: a line starting with hash-space whose remainder contains ELARA,
then any further newline-terminated hash lines, then the literal dependency
line, then the greedy whitespace tail ending in a newline. -/
def matchBlock (s : List Char) : Option (List Char) :=
  match s with
  | c1 :: c2 :: rest =>
    if c1 = '#' ∧ c2 = ' ' then
      match splitLine rest with
      | some (line1, r1) =>
        if occursB elaraTok line1 then
          match dropPrefixCL depLine (dropCommentLines r1) with
          | some r3 => dropWsNl r3
          | none => none
        else none
      | none => none
    else none
  | _ => none

/-- Fuel-bounded left-to-right scan of re.sub with empty replacement: on a
match, delete it and continue after its end; otherwise keep one character
and move on. -/
def subBlockAux : Nat → List Char → List Char
  | 0, s => s
  | fuel + 1, s =>
    match s with
    | [] => []
    | c :: cs =>
      match matchBlock (c :: cs) with
      | some rest => subBlockAux fuel rest
      | none => c :: subBlockAux fuel cs

/-- Models the re.sub call of main (line 13): remove every non-overlapping
match of the dependency-block pattern, scanning left to right. -/
def subBlock (s : List Char) : List Char :=
  subBlockAux s.length s

/-- Fuel-bounded scan of str.replace: replace each non-overlapping leftmost
occurrence of p by r.  (For an empty p the scan leaves s unchanged; the
script only ever replaces nonempty literals.) -/
def replaceAllAux (p r : List Char) : Nat → List Char → List Char
  | 0, s => s
  | _ + 1, [] => []
  | fuel + 1, c :: cs =>
    if isPrefixOfCL p (c :: cs) && !p.isEmpty then
      r ++ replaceAllAux p r fuel (List.drop (p.length - 1) cs)
    else c :: replaceAllAux p r fuel cs

/-- Models str.replace with enough fuel for its input. -/
def replaceAll (p r s : List Char) : List Char :=
  replaceAllAux p r s.length s

/-- The feature line the script replaces (line 19, left side). -/
def featLineOld : List Char := ("elara-transport = [\"dep:elara-transport\"]").data

/-- The empty-list feature line (line 19, right side; also the membership
test of line 22). -/
def featLineNew : List Char := ("elara-transport = []").data

/-- The aggregate feature line the script replaces (line 20, left side). -/
def aggLineOld : List Char := ("elara = [\"elara-transport\", \"tokio\"]").data

/-- The rewritten aggregate feature line (line 20, right side; also the
target of the insertion of line 23). -/
def aggLineNew : List Char := ("elara = [\"tokio\"]").data

/-- The text the ensure-default step substitutes for the aggregate line
(line 23, right side). -/
def insertLines : List Char := aggLineNew ++ '\n' :: featLineNew

/-- The confirmation line printed on success (line 26). -/
def confirmMsg : List Char :=
  ("Cargo.toml prepared for publish (elara-transport removed)").data

/-- The buffer after the strip step and the two literal replacements
(lines 13 to 20). -/
def afterReplacements (content : List Char) : List Char :=
  replaceAll aggLineOld aggLineNew
    (replaceAll featLineOld featLineNew (subBlock content))

/-- The ensure-default step (lines 22 to 23): when the empty-list feature
line is absent, substitute every occurrence of the rewritten aggregate line
by itself followed by that feature line. -/
def ensureDefault (content : List Char) : List Char :=
  if occursB featLineNew content then content
  else replaceAll aggLineNew insertLines content

/-- The whole in-memory transformation of main (lines 10 to 25): content as
read, content as written. -/
def mainTransform (content : List Char) : List Char :=
  ensureDefault (afterReplacements content)

/-- Models one process run (main plus the sys.exit wrapper, lines 7 to 30).
The file is an Option: none means Cargo.toml is missing, read_text raises,
and the uncaught exception ends the process with exit status 1 and no file
is created or written.  writeOk models whether write_text succeeds; the
on-disk content after a failed write is not modelled and no theorem relies
on it.  Result: (exit status, file afterwards, stdout line). -/
def runScript (file : Option (List Char)) (writeOk : Bool) :
    Nat × Option (List Char) × Option (List Char) :=
  match file with
  | none => (1, none, none)
  | some content =>
    if writeOk then (0, some (mainTransform content), some confirmMsg)
    else (1, some content, none)

/-- The run as a function of the script directory (from which main derives
the manifest path) and the content: the directory selects the file but
never flows into the rewritten text or the printed line. -/
def runWithEnv (_scriptDir : List Char) (content : List Char) :
    List Char × List Char :=
  (mainTransform content, confirmMsg)

/-- The body of the comment line of the canonical block, after hash-space. -/
def cmtBody : List Char := ("ELARA transport (not published)").data

/-- The comment line of the canonical block. -/
def cmtLine : List Char := '#' :: ' ' :: cmtBody

/-- The canonical optional-dependency block: marker comment line, dependency
line, and the blank line after it (exactly what one regex match consumes
when the following text does not begin with whitespace). -/
def blk : List Char := cmtLine ++ '\n' :: depLine ++ '\n' :: '\n' :: []

/-- True when the list does not begin with a whitespace character, so a
match ending just before it consumes no further characters. -/
def wsSafe : List Char → Bool
  | [] => true
  | c :: _ => !isWsChar c

/-- True when the block regex matches at no position of s. -/
def noMatchScan : List Char → Bool
  | [] => true
  | c :: cs => (matchBlock (c :: cs)).isNone && noMatchScan cs

/-- True when no occurrence of pat begins strictly inside p, in the
concatenation of p with the following text q. -/
def noOccAcross (pat : List Char) : List Char → List Char → Bool
  | [], _ => true
  | c :: p, q => !isPrefixOfCL pat (c :: (p ++ q)) && noOccAcross pat p q

/-- The end-to-end scenario input: marker comment, dependency line, blank
line, feature line, aggregate line. -/
def sampleIn : List Char :=
  ("# ELARA transport (not published)\n" ++
   "elara-transport = \x7b path = \"elara/crates/elara-transport\", optional = true \x7d\n" ++
   "\n" ++
   "elara-transport = [\"dep:elara-transport\"]\n" ++
   "elara = [\"elara-transport\", \"tokio\"]\n").data

/-- The expected end-to-end output: the block gone, both feature lines
rewritten. -/
def sampleOut : List Char :=
  ("elara-transport = []\nelara = [\"tokio\"]\n").data

/-- A manifest on which the transformation is not idempotent: the removal
of the inner block splices the leading marker comment and the severed
halves of a dependency line into a fresh match, which only a second run
removes. -/
def idemCex : List Char :=
  ("# ELARAw\nelara-tra# ELARAv\n").data ++ depLine ++
    '\n' :: (List.drop 9 depLine ++ '\n' :: [])

/-- Two identical canonical blocks around an unrelated line. -/
def twoRunsCex : List Char := blk ++ ("x\n").data ++ blk

/-- Consuming a line leaves a strictly shorter remainder. -/
theorem splitLine_length : ∀ {s l r : List Char}, splitLine s = some (l, r) → r.length < s.length := by
  intro s
  induction s with
  | nil => intro l r h; simp [splitLine] at h
  | cons c cs ih =>
    intro l r h
    simp only [splitLine] at h
    split at h
    · simp only [Option.some.injEq, Prod.mk.injEq] at h
      obtain ⟨-, rfl⟩ := h
      simp
    · cases hs : splitLine cs with
      | none => rw [hs] at h; simp at h
      | some lr =>
        obtain ⟨l1, r1⟩ := lr
        rw [hs] at h
        simp only [Option.some.injEq, Prod.mk.injEq] at h
        obtain ⟨-, rfl⟩ := h
        have := ih hs
        simp only [List.length_cons]
        omega

/-- splitLine cuts at the first newline. -/
theorem splitLine_append : ∀ (l r : List Char), '\n' ∉ l → splitLine (l ++ '\n' :: r) = some (l, r) := by
  intro l
  induction l with
  | nil => intro r _; simp [splitLine]
  | cons c l ih =>
    intro r h
    have hc : c ≠ '\n' := fun hc => h (by simp [hc])
    have h2 : '\n' ∉ l := fun hm => h (List.mem_cons_of_mem _ hm)
    simp [splitLine, hc, ih r h2]

/-- The comment-line loop never lengthens its input. -/
theorem dropCommentLinesAux_length : ∀ (fuel : Nat) (s : List Char), (dropCommentLinesAux fuel s).length ≤ s.length := by
  intro fuel
  induction fuel with
  | zero => intro s; exact le_rfl
  | succ fuel ih =>
    intro s
    cases s with
    | nil => exact le_rfl
    | cons c cs =>
      simp only [dropCommentLinesAux]
      split
      · cases hs : splitLine cs with
        | none => exact le_rfl
        | some lr =>
          obtain ⟨l1, r1⟩ := lr
          have h1 := splitLine_length hs
          have h2 := ih r1
          simp only [List.length_cons]
          omega
      · exact le_rfl

/-- The comment-line loop never lengthens its input. -/
theorem dropCommentLines_length (s : List Char) : (dropCommentLines s).length ≤ s.length :=
  dropCommentLinesAux_length s.length s

/-- The comment-line loop stops at once on a non-hash character. -/
theorem dropCommentLines_cons_ne {c : Char} (cs : List Char) (hc : c ≠ '#') : dropCommentLines (c :: cs) = c :: cs := by
  simp [dropCommentLines, dropCommentLinesAux, hc]

/-- Consuming a literal never lengthens the remainder. -/
theorem dropPrefixCL_length : ∀ (p s r : List Char), dropPrefixCL p s = some r → r.length ≤ s.length := by
  intro p
  induction p with
  | nil =>
    intro s r h
    simp only [dropPrefixCL, Option.some.injEq] at h
    subst h
    exact le_rfl
  | cons x ps ih =>
    intro s r h
    cases s with
    | nil => simp [dropPrefixCL] at h
    | cons c cs =>
      simp only [dropPrefixCL] at h
      split at h
      · have := ih cs r h
        simp only [List.length_cons]
        omega
      · simp at h

/-- Consuming a literal off its own concatenation. -/
theorem dropPrefixCL_self : ∀ (p t : List Char), dropPrefixCL p (p ++ t) = some t := by
  intro p t
  induction p with
  | nil => rfl
  | cons x ps ih => simp [dropPrefixCL, ih]

/-- The whitespace tail consumes at least its final newline. -/
theorem dropWsNl_length : ∀ {s r : List Char}, dropWsNl s = some r → r.length < s.length := by
  intro s
  induction s with
  | nil => intro r h; simp [dropWsNl] at h
  | cons c cs ih =>
    intro r h
    by_cases hw : isWsChar c = true
    · cases hi : dropWsNl cs with
      | some r1 =>
        have hv : dropWsNl (c :: cs) = some r1 := by simp [dropWsNl, hw, hi]
        rw [hv] at h
        simp only [Option.some.injEq] at h
        subst h
        have := ih hi
        simp only [List.length_cons]
        omega
      | none =>
        by_cases hc : c = '\n'
        · have hv : dropWsNl (c :: cs) = some cs := by
            subst hc
            simp [dropWsNl, hi, (show isWsChar '\n' = true by decide)]
          rw [hv] at h
          simp only [Option.some.injEq] at h
          subst h
          simp
        · have hv : dropWsNl (c :: cs) = none := by simp [dropWsNl, hw, hi, hc]
          rw [hv] at h
          simp at h
    · have hv : dropWsNl (c :: cs) = none := by simp [dropWsNl, hw]
      rw [hv] at h
      simp at h

/-- The regex cannot match on a text not starting with a hash. -/
theorem matchBlock_head_ne {c : Char} (t : List Char) (hc : c ≠ '#') : matchBlock (c :: t) = none := by
  cases t with
  | nil => rfl
  | cons c2 rest => simp [matchBlock, hc]

/-- A regex match consumes at least one character. -/
theorem matchBlock_length : ∀ {s r : List Char}, matchBlock s = some r → r.length < s.length := by
  intro s r h
  cases s with
  | nil => simp [matchBlock] at h
  | cons c1 t =>
    cases t with
    | nil => simp [matchBlock] at h
    | cons c2 rest =>
      by_cases hc : c1 = '#' ∧ c2 = ' '
      · cases hs : splitLine rest with
        | none => simp [matchBlock, hc.1, hc.2, hs] at h
        | some lr =>
          obtain ⟨line1, r1⟩ := lr
          by_cases ho : occursB elaraTok line1 = true
          · cases hd : dropPrefixCL depLine (dropCommentLines r1) with
            | none => simp [matchBlock, hc.1, hc.2, hs, ho, hd] at h
            | some r3 =>
              have hv : matchBlock (c1 :: c2 :: rest) = dropWsNl r3 := by
                simp [matchBlock, hc.1, hc.2, hs, ho, hd]
              rw [hv] at h
              have h1 := splitLine_length hs
              have h2 := dropCommentLines_length r1
              have h3 := dropPrefixCL_length _ _ _ hd
              have h4 := dropWsNl_length h
              simp only [List.length_cons]
              omega
          · simp [matchBlock, hc.1, hc.2, hs, ho] at h
      · simp [matchBlock, hc] at h

/-- The scan of an empty text. -/
theorem subBlockAux_nil : ∀ fuel, subBlockAux fuel [] = [] := by
  intro fuel
  cases fuel <;> rfl

/-- Any sufficient fuel gives the same scan. -/
theorem subBlockAux_eq : ∀ (f1 f2 : Nat) {s : List Char}, s.length ≤ f1 → s.length ≤ f2 → subBlockAux f1 s = subBlockAux f2 s := by
  intro f1
  induction f1 with
  | zero =>
    intro f2 s h1 _
    have hs : s = [] := List.length_eq_zero.mp (Nat.le_zero.mp h1)
    subst hs
    simp [subBlockAux_nil]
  | succ f1 ih =>
    intro f2 s h1 h2
    cases s with
    | nil => simp [subBlockAux_nil]
    | cons c cs =>
      cases f2 with
      | zero =>
        simp only [List.length_cons] at h2
        omega
      | succ f2 =>
        simp only [subBlockAux]
        cases hm : matchBlock (c :: cs) with
        | some rest =>
          have hr := matchBlock_length hm
          simp only [List.length_cons] at h1 h2 hr
          exact ih f2 (by omega) (by omega)
        | none =>
          simp only [List.length_cons] at h1 h2
          rw [ih f2 (by omega) (by omega)]

/-- One scan step on a position with no match. -/
theorem subBlock_cons_none {c : Char} {cs : List Char} (h : matchBlock (c :: cs) = none) : subBlock (c :: cs) = c :: subBlock cs := by
  simp [subBlock, subBlockAux, List.length_cons, h]

/-- One scan step on a position with a match: drop it and continue after. -/
theorem subBlock_match {s r : List Char} (h : matchBlock s = some r) : subBlock s = subBlock r := by
  cases s with
  | nil => simp [matchBlock] at h
  | cons c cs =>
    have hr := matchBlock_length h
    simp only [List.length_cons] at hr
    have step : subBlock (c :: cs) = subBlockAux cs.length r := by
      simp [subBlock, subBlockAux, List.length_cons, h]
    rw [step]
    exact subBlockAux_eq cs.length r.length (by omega) le_rfl

/-- The scan walks through hash-free text unchanged. -/
theorem subBlock_append_nohash (t : List Char) : ∀ (p : List Char), '#' ∉ p → subBlock (p ++ t) = p ++ subBlock t := by
  intro p
  induction p with
  | nil => intro _; simp
  | cons c p ih =>
    intro hp
    have hc : c ≠ '#' := fun h => hp (by simp [h])
    have hp2 : '#' ∉ p := fun h => hp (List.mem_cons_of_mem _ h)
    have hm : matchBlock (c :: (p ++ t)) = none := matchBlock_head_ne _ hc
    rw [List.cons_append, subBlock_cons_none hm, ih hp2, List.cons_append]

/-- The scan of an empty text keeps it. -/
theorem subBlock_nil : subBlock [] = [] := rfl

/-- Hash-free text has no match anywhere, so the strip step keeps it. -/
theorem subBlock_id_of_nohash {s : List Char} (h : '#' ∉ s) : subBlock s = s := by
  have := subBlock_append_nohash [] s h
  simpa [subBlock_nil] using this

/-- When the regex matches at no position, the strip step is the identity. -/
theorem subBlock_id_of_noMatch : ∀ {s : List Char}, noMatchScan s = true → subBlock s = s := by
  intro s
  induction s with
  | nil => intro _; rfl
  | cons c cs ih =>
    intro h
    simp only [noMatchScan, Bool.and_eq_true, Option.isNone_iff_eq_none] at h
    obtain ⟨h1, h2⟩ := h
    rw [subBlock_cons_none h1, ih h2]

/-- Replacement of an empty text. -/
theorem replaceAllAux_nil (p r : List Char) : ∀ fuel, replaceAllAux p r fuel [] = [] := by
  intro fuel
  cases fuel <;> rfl

/-- Any sufficient fuel gives the same replacement scan. -/
theorem replaceAllAux_eq (p r : List Char) : ∀ (f1 f2 : Nat) {s : List Char}, s.length ≤ f1 → s.length ≤ f2 → replaceAllAux p r f1 s = replaceAllAux p r f2 s := by
  intro f1
  induction f1 with
  | zero =>
    intro f2 s h1 _
    have hs : s = [] := List.length_eq_zero.mp (Nat.le_zero.mp h1)
    subst hs
    simp [replaceAllAux_nil]
  | succ f1 ih =>
    intro f2 s h1 h2
    cases s with
    | nil => simp [replaceAllAux_nil]
    | cons c cs =>
      cases f2 with
      | zero =>
        simp only [List.length_cons] at h2
        omega
      | succ f2 =>
        have hd : (List.drop (p.length - 1) cs).length ≤ cs.length := by
          simp [List.length_drop]
        simp only [List.length_cons] at h1 h2
        simp only [replaceAllAux]
        split
        · rw [ih f2 (by omega) (by omega)]
        · rw [ih f2 (by omega) (by omega)]

/-- One replacement step on a position where the literal is not a prefix. -/
theorem replaceAll_cons_neg {p : List Char} (r : List Char) {c : Char} {cs : List Char}
    (h : (isPrefixOfCL p (c :: cs) && !p.isEmpty) = false) :
    replaceAll p r (c :: cs) = c :: replaceAll p r cs := by
  simp [replaceAll, replaceAllAux, List.length_cons, h]

/-- One replacement step on a position where the nonempty literal matches. -/
theorem replaceAll_cons_pos {p : List Char} (r : List Char) {c : Char} {cs : List Char}
    (h : (isPrefixOfCL p (c :: cs) && !p.isEmpty) = true) :
    replaceAll p r (c :: cs) = r ++ replaceAll p r (List.drop (p.length - 1) cs) := by
  have hd : (List.drop (p.length - 1) cs).length ≤ cs.length := by
    simp [List.length_drop]
  have step : replaceAll p r (c :: cs) = r ++ replaceAllAux p r cs.length (List.drop (p.length - 1) cs) := by
    simp [replaceAll, replaceAllAux, List.length_cons, h]
  rw [step, replaceAllAux_eq p r cs.length (List.drop (p.length - 1) cs).length hd le_rfl]
  rfl

/-- Replacement of an empty text. -/
theorem replaceAll_nil (p r : List Char) : replaceAll p r [] = [] := rfl

/-- str.replace with no occurrence of its needle is the identity. -/
theorem replaceAll_id {p : List Char} (r : List Char) : ∀ {s : List Char}, occursB p s = false → replaceAll p r s = s := by
  intro s
  induction s with
  | nil => intro _; rfl
  | cons c cs ih =>
    intro h
    simp only [occursB, Bool.or_eq_false_iff] at h
    obtain ⟨h1, h2⟩ := h
    rw [replaceAll_cons_neg r (by simp [h1]), ih h2]

/-- A literal is a prefix of itself followed by anything. -/
theorem isPrefixOfCL_self_append : ∀ (p t : List Char), isPrefixOfCL p (p ++ t) = true := by
  intro p t
  induction p with
  | nil => rfl
  | cons x ps ih => simp [isPrefixOfCL, ih]

/-- A prefix stays a prefix under extension on the right. -/
theorem isPrefixOfCL_extend : ∀ (p s t : List Char), isPrefixOfCL p s = true → isPrefixOfCL p (s ++ t) = true := by
  intro p
  induction p with
  | nil => intro s t _; rfl
  | cons x ps ih =>
    intro s t h
    cases s with
    | nil => simp [isPrefixOfCL] at h
    | cons c cs =>
      simp only [List.cons_append, isPrefixOfCL, Bool.and_eq_true] at h ⊢
      exact ⟨h.1, ih cs t h.2⟩

/-- Dropping the length of the left part of a concatenation. -/
theorem dropLenAppend : ∀ (u v : List Char), List.drop u.length (u ++ v) = v := by
  intro u v
  induction u with
  | nil => rfl
  | cons c u ih => simp [ih]

/-- The empty needle occurs everywhere (as in Python). -/
theorem occursB_nilpat : ∀ s, occursB [] s = true := by
  intro s
  cases s <;> rfl

/-- An occurrence survives extension on the right. -/
theorem occursB_append_right : ∀ (p u v : List Char), occursB p u = true → occursB p (u ++ v) = true := by
  intro p u v
  induction u with
  | nil =>
    intro h
    cases p with
    | nil => simp [occursB_nilpat]
    | cons x ps => simp [occursB] at h
  | cons c u ih =>
    intro h
    simp only [occursB, Bool.or_eq_true] at h
    simp only [List.cons_append, occursB, Bool.or_eq_true]
    rcases h with h | h
    · exact Or.inl (by simpa using isPrefixOfCL_extend p (c :: u) v h)
    · exact Or.inr (ih h)

/-- An occurrence survives extension on the left. -/
theorem occursB_append_left : ∀ (p u v : List Char), occursB p v = true → occursB p (u ++ v) = true := by
  intro p u v h
  induction u with
  | nil => simpa using h
  | cons c u ih =>
    simp only [List.cons_append, occursB, Bool.or_eq_true]
    exact Or.inr ih

/-- An occurrence in the middle of a concatenation. -/
theorem occursB_mid (p u m v : List Char) (h : occursB p m = true) : occursB p (u ++ m ++ v) = true := by
  rw [List.append_assoc]
  exact occursB_append_left p u (m ++ v) (occursB_append_right p m v h)

/-- str.replace rewrites an occurrence sitting after occurrence-free text
and keeps scanning only to its right. -/
theorem replaceAll_mid (p r : List Char) (hp : p ≠ []) : ∀ (u q : List Char), noOccAcross p u (p ++ q) = true → replaceAll p r (u ++ p ++ q) = u ++ r ++ replaceAll p r q := by
  intro u
  induction u with
  | nil =>
    intro q _
    cases p with
    | nil => exact absurd rfl hp
    | cons x ps =>
      have hpre : isPrefixOfCL (x :: ps) ((x :: ps) ++ q) = true := isPrefixOfCL_self_append _ _
      have hcond : (isPrefixOfCL (x :: ps) (x :: (ps ++ q)) && !(x :: ps).isEmpty) = true := by
        simpa using hpre
      simp only [List.nil_append, List.cons_append]
      rw [replaceAll_cons_pos r hcond]
      simp only [List.length_cons, Nat.add_sub_cancel, dropLenAppend]
  | cons c u ih =>
    intro q h
    simp only [noOccAcross, Bool.and_eq_true, Bool.not_eq_true'] at h
    obtain ⟨h1, h2⟩ := h
    have hcond : (isPrefixOfCL p (c :: (u ++ p ++ q)) && !p.isEmpty) = false := by
      simp only [List.append_assoc]
      simp [h1]
    simp only [List.cons_append]
    rw [replaceAll_cons_neg r (by simpa [List.append_assoc] using hcond)]
    have := ih q h2
    simp only [List.cons_append, List.append_assoc] at this ⊢
    rw [this]

/-- When the needle occurs, str.replace plants the replacement somewhere. -/
theorem replaceAll_occurs (p r : List Char) (hp : p ≠ []) : ∀ {s : List Char}, occursB p s = true → ∃ u v, replaceAll p r s = u ++ r ++ v := by
  intro s
  induction s with
  | nil =>
    intro h
    cases p with
    | nil => exact absurd rfl hp
    | cons x ps => simp [occursB] at h
  | cons c cs ih =>
    intro h
    by_cases hpre : isPrefixOfCL p (c :: cs) = true
    · refine ⟨[], replaceAll p r (List.drop (p.length - 1) cs), ?_⟩
      have hne : p.isEmpty = false := by
        cases p with
        | nil => exact absurd rfl hp
        | cons x ps => rfl
      rw [replaceAll_cons_pos r (by simp [hpre, hne])]
      simp
    · have hpre2 : isPrefixOfCL p (c :: cs) = false := by
        simpa using hpre
      have h2 : occursB p cs = true := by
        simp only [occursB, Bool.or_eq_true] at h
        rcases h with h | h
        · exact absurd h hpre
        · exact h
      obtain ⟨u, v, hr⟩ := ih h2
      refine ⟨c :: u, v, ?_⟩
      rw [replaceAll_cons_neg r (by simp [hpre2]), hr]
      simp

/-- Text beginning with the canonical block is whitespace-safe (the block
starts with a hash). -/
theorem wsSafe_append_blk (m x : List Char) (hm : wsSafe m = true) : wsSafe (m ++ blk ++ x) = true := by
  cases m with
  | nil =>
    simp only [List.nil_append, blk, cmtLine, List.cons_append, List.append_assoc, wsSafe]
    decide
  | cons c m2 =>
    simp only [List.cons_append, wsSafe]
    simpa [wsSafe] using hm

/-- The regex matches the canonical block at its head and consumes exactly
the block when the following text does not begin with whitespace. -/
theorem matchBlock_blk {r : List Char} (hr : wsSafe r = true) : matchBlock (blk ++ r) = some r := by
  have hshape : blk ++ r = '#' :: ' ' :: (cmtBody ++ '\n' :: (depLine ++ '\n' :: '\n' :: r)) := by
    simp [blk, cmtLine, List.cons_append, List.append_assoc]
  rw [hshape]
  have hsl : splitLine (cmtBody ++ '\n' :: (depLine ++ '\n' :: '\n' :: r)) = some (cmtBody, depLine ++ '\n' :: '\n' :: r) :=
    splitLine_append cmtBody _ (by decide)
  have htok : occursB elaraTok cmtBody = true := by decide
  have hdc : dropCommentLines (depLine ++ '\n' :: '\n' :: r) = depLine ++ '\n' :: '\n' :: r := by
    have hsh : depLine ++ '\n' :: '\n' :: r = 'e' :: (depTail ++ '\n' :: '\n' :: r) := by
      simp [depLine]
    rw [hsh]
    exact dropCommentLines_cons_ne _ (by decide)
  have hdp : dropPrefixCL depLine (depLine ++ '\n' :: '\n' :: r) = some ('\n' :: '\n' :: r) :=
    dropPrefixCL_self _ _
  have hwn : dropWsNl ('\n' :: '\n' :: r) = some r := by
    cases r with
    | nil => decide
    | cons c rs =>
      have hc : isWsChar c = false := by simpa [wsSafe] using hr
      simp [dropWsNl, hc, (show isWsChar '\n' = true by decide)]
  simp [matchBlock, hsl, htok, hdc, hdp, hwn]

/-- C2 (corrected): the strip step removes every copy of the
optional-dependency block scanned left to right, not only the first: around
hash-free context whose pieces do not begin with whitespace, both copies of
the canonical block are removed and all other lines are kept unchanged in
their original order. -/
theorem strip_removes_all_runs (p m q : List Char) (hp : '#' ∉ p) (hm : '#' ∉ m) (hq : '#' ∉ q) (hwm : wsSafe m = true) (hwq : wsSafe q = true) :
    subBlock (p ++ (blk ++ (m ++ (blk ++ q)))) = p ++ (m ++ q) := by
  have h1 : wsSafe (m ++ (blk ++ q)) = true := by
    have := wsSafe_append_blk m q hwm
    simpa [List.append_assoc] using this
  rw [subBlock_append_nohash _ p hp]
  rw [subBlock_match (matchBlock_blk h1)]
  rw [subBlock_append_nohash _ m hm]
  rw [subBlock_match (matchBlock_blk hwq)]
  rw [subBlock_id_of_nohash hq]

/-- Witness for C2: a concrete manifest with two blocks, both removed. -/
theorem strip_removes_all_runs_witness :
    subBlock (("a\n").data ++ (blk ++ (("x\n").data ++ (blk ++ ("b\n").data)))) = ("a\n").data ++ (("x\n").data ++ ("b\n").data) :=
  strip_removes_all_runs _ _ _ (by decide) (by decide) (by decide) (by decide) (by decide)

/-- Counterexample for C2 as stated: on a manifest holding two identical
block runs, the strip step removes both, so the second run is not left in
place. -/
theorem strip_second_run_not_kept :
    subBlock twoRunsCex = ("x\n").data ∧ subBlock twoRunsCex ≠ ("x\n").data ++ blk := by
  decide

/-- C1 (confirmed): on the end-to-end scenario manifest (marker comment,
dependency line, blank line, feature line, aggregate line) one run removes
the three-line block, rewrites the feature line to an empty list and the
aggregate line to list only tokio, and prints the confirmation line. -/
theorem end_to_end_scenario :
    mainTransform sampleIn = sampleOut ∧
    runScript (some sampleIn) true = (0, some sampleOut, some confirmMsg) := by
  decide

/-- Counterexample for C3 as stated: a manifest on which a second run
changes the content further, because removing the inner block splices the
leading marker comment and the severed dependency-line halves into a fresh
match that only the second run removes. -/
theorem idempotence_cex :
    mainTransform (mainTransform idemCex) ≠ mainTransform idemCex := by
  decide

/-- C3 (corrected): the transformation is idempotent on every input whose
first-run output contains no occurrence of the block pattern and no
occurrence of either replacement-target line; the ensure-default step needs
no further hypothesis, being idempotent by its presence check. -/
theorem idempotent_of_stable (c : List Char)
    (h1 : noMatchScan (mainTransform c) = true)
    (h2 : occursB featLineOld (mainTransform c) = false)
    (h3 : occursB aggLineOld (mainTransform c) = false) :
    mainTransform (mainTransform c) = mainTransform c := by
  have key : occursB featLineNew (mainTransform c) = true ∨ occursB aggLineNew (mainTransform c) = false := by
    by_cases hA : occursB featLineNew (afterReplacements c) = true
    · left
      have hT : mainTransform c = afterReplacements c := by
        simp [mainTransform, ensureDefault, hA]
      rw [hT]
      exact hA
    · have hA2 : occursB featLineNew (afterReplacements c) = false := by simpa using hA
      have hT : mainTransform c = replaceAll aggLineNew insertLines (afterReplacements c) := by
        simp [mainTransform, ensureDefault, hA2]
      by_cases hB : occursB aggLineNew (afterReplacements c) = true
      · left
        obtain ⟨u, v, hr⟩ := replaceAll_occurs aggLineNew insertLines (by decide) hB
        rw [hT, hr]
        exact occursB_mid _ _ _ _ (by decide : occursB featLineNew insertLines = true)
      · right
        have hB2 : occursB aggLineNew (afterReplacements c) = false := by simpa using hB
        rw [hT, replaceAll_id _ hB2]
        exact hB2
  have s1 : subBlock (mainTransform c) = mainTransform c := subBlock_id_of_noMatch h1
  have s2 : afterReplacements (mainTransform c) = mainTransform c := by
    simp only [afterReplacements, s1, replaceAll_id _ h2, replaceAll_id _ h3]
  show ensureDefault (afterReplacements (mainTransform c)) = mainTransform c
  rw [s2]
  rcases key with hk | hk
  · simp [ensureDefault, hk]
  · by_cases hA : occursB featLineNew (mainTransform c) = true
    · simp [ensureDefault, hA]
    · have hA2 : occursB featLineNew (mainTransform c) = false := by simpa using hA
      simp [ensureDefault, hA2, replaceAll_id _ hk]

/-- Witness for C3: the end-to-end scenario manifest is stable under a
second run. -/
theorem idempotent_of_stable_witness :
    mainTransform (mainTransform sampleIn) = mainTransform sampleIn :=
  idempotent_of_stable sampleIn (by decide) (by decide) (by decide)

/-- Counterexample for C4 as stated: a manifest with no aggregate line; the
empty-list feature line is absent after the strip and replacements, yet no
insertion happens and the written manifest still lacks it. -/
theorem ensure_default_no_agg_cex :
    occursB featLineNew (afterReplacements (("hello\n").data)) = false ∧
    occursB featLineNew (mainTransform (("hello\n").data)) = false := by
  decide

/-- C4 (corrected): when after the strip step and the two replacements the
empty-list feature line is absent and the rewritten aggregate line is
present, the run inserts the feature line as a new line immediately after
the aggregate line, so the written manifest contains it. -/
theorem ensure_default_inserts (c : List Char)
    (h1 : occursB featLineNew (afterReplacements c) = false)
    (h2 : occursB aggLineNew (afterReplacements c) = true) :
    ∃ u v, mainTransform c = u ++ (aggLineNew ++ '\n' :: featLineNew) ++ v := by
  obtain ⟨u, v, hr⟩ := replaceAll_occurs aggLineNew insertLines (by decide) h2
  refine ⟨u, v, ?_⟩
  have hT : mainTransform c = replaceAll aggLineNew insertLines (afterReplacements c) := by
    simp [mainTransform, ensureDefault, h1]
  rw [hT, hr]
  rfl

/-- Witness for C4: a manifest holding only the rewritten aggregate line
receives the inserted feature line. -/
theorem ensure_default_inserts_witness :
    ∃ u v, mainTransform (aggLineNew ++ ('\n' :: [])) = u ++ (aggLineNew ++ '\n' :: featLineNew) ++ v :=
  ensure_default_inserts _ (by decide) (by decide)

/-- Counterexample for C5 as stated: a manifest with no block run and no
occurrence of either replacement target is still modified, because the
ensure-default step fires on the rewritten aggregate line. -/
theorem passthrough_cex :
    noMatchScan (aggLineNew ++ ('\n' :: [])) = true ∧
    occursB featLineOld (aggLineNew ++ ('\n' :: [])) = false ∧
    occursB aggLineOld (aggLineNew ++ ('\n' :: [])) = false ∧
    mainTransform (aggLineNew ++ ('\n' :: [])) ≠ aggLineNew ++ ('\n' :: []) := by
  decide

/-- C5 (corrected): a manifest with no block match, no occurrence of either
replacement target, and on which the ensure-default step cannot fire (the
empty-list feature line already present, or the rewritten aggregate line
absent) is written back byte-identical, silently. -/
theorem passthrough_unmodified (c : List Char)
    (h1 : noMatchScan c = true)
    (h2 : occursB featLineOld c = false)
    (h3 : occursB aggLineOld c = false)
    (h4 : occursB featLineNew c = true ∨ occursB aggLineNew c = false) :
    mainTransform c = c := by
  have har : afterReplacements c = c := by
    simp only [afterReplacements, subBlock_id_of_noMatch h1, replaceAll_id _ h2, replaceAll_id _ h3]
  show ensureDefault (afterReplacements c) = c
  rw [har]
  rcases h4 with hk | hk
  · simp [ensureDefault, hk]
  · by_cases hA : occursB featLineNew c = true
    · simp [ensureDefault, hA]
    · have hA2 : occursB featLineNew c = false := by simpa using hA
      simp [ensureDefault, hA2, replaceAll_id _ hk]

/-- Witness for C5: an unrelated manifest passes through unchanged. -/
theorem passthrough_unmodified_witness :
    mainTransform (("name = 1\n").data) = ("name = 1\n").data :=
  passthrough_unmodified _ (by decide) (by decide) (by decide) (Or.inr (by decide))

/-- Counterexample for C6 as stated: a manifest declaring the reference
feature line and the aggregate line; after the run the other line is not
byte-identical to the input. -/
theorem feat_replace_other_lines_cex :
    mainTransform (featLineOld ++ '\n' :: aggLineOld ++ ('\n' :: [])) =
      featLineNew ++ '\n' :: aggLineNew ++ ('\n' :: []) ∧
    featLineNew ++ '\n' :: aggLineNew ++ ('\n' :: []) ≠ featLineNew ++ '\n' :: aggLineOld ++ ('\n' :: []) := by
  decide

/-- C6 (corrected): in a manifest whose sole occurrence of the reference
feature line lies in otherwise inert text (no block match anywhere, no
occurrence of the aggregate target line), the run rewrites that line to the
empty list and keeps every other character unchanged. -/
theorem feat_replace_exact (p q : List Char)
    (h1 : noMatchScan (p ++ featLineOld ++ q) = true)
    (h2 : noOccAcross featLineOld p (featLineOld ++ q) = true)
    (h3 : occursB featLineOld q = false)
    (h4 : occursB aggLineOld (p ++ featLineNew ++ q) = false) :
    mainTransform (p ++ featLineOld ++ q) = p ++ featLineNew ++ q := by
  have s1 : subBlock (p ++ featLineOld ++ q) = p ++ featLineOld ++ q := subBlock_id_of_noMatch h1
  have s2 : replaceAll featLineOld featLineNew (p ++ featLineOld ++ q) = p ++ featLineNew ++ q := by
    rw [replaceAll_mid featLineOld featLineNew (by decide) p q h2, replaceAll_id _ h3]
  have s3 : replaceAll aggLineOld aggLineNew (p ++ featLineNew ++ q) = p ++ featLineNew ++ q :=
    replaceAll_id _ h4
  have har : afterReplacements (p ++ featLineOld ++ q) = p ++ featLineNew ++ q := by
    simp only [afterReplacements, s1, s2, s3]
  show ensureDefault (afterReplacements (p ++ featLineOld ++ q)) = p ++ featLineNew ++ q
  rw [har]
  have hocc : occursB featLineNew (p ++ featLineNew ++ q) = true :=
    occursB_mid _ _ _ _ (by decide : occursB featLineNew featLineNew = true)
  simp only [ensureDefault, hocc, if_true]

/-- Witness for C6: the reference feature line alone is rewritten in
place. -/
theorem feat_replace_exact_witness :
    mainTransform (featLineOld ++ ('\n' :: [])) = featLineNew ++ ('\n' :: []) := by
  have h := feat_replace_exact [] ('\n' :: []) (by decide) (by decide) (by decide) (by decide)
  simpa using h

/-- Counterexample for C7 as stated: a manifest whose aggregate line sits
inside the marker comment of a block; the run removes the whole block, so
no line listing only tokio remains. -/
theorem agg_line_destroyed_cex :
    occursB aggLineOld (("# ELARA elara = [\"elara-transport\", \"tokio\"]\n").data ++ depLine ++ ('\n' :: [])) = true ∧
    mainTransform (("# ELARA elara = [\"elara-transport\", \"tokio\"]\n").data ++ depLine ++ ('\n' :: [])) = [] ∧
    occursB aggLineNew ([] : List Char) = false := by
  decide

/-- C7 (corrected): in a manifest whose sole occurrence of the aggregate
line lies in otherwise inert text (no block match anywhere, no reference
feature line, the empty-list feature line already present around it), the
run rewrites the aggregate line to list only tokio and keeps every other
character unchanged. -/
theorem agg_replace_exact (p q : List Char)
    (h1 : noMatchScan (p ++ aggLineOld ++ q) = true)
    (h2 : occursB featLineOld (p ++ aggLineOld ++ q) = false)
    (h3 : noOccAcross aggLineOld p (aggLineOld ++ q) = true)
    (h4 : occursB aggLineOld q = false)
    (h5 : occursB featLineNew p = true ∨ occursB featLineNew q = true) :
    mainTransform (p ++ aggLineOld ++ q) = p ++ aggLineNew ++ q := by
  have s1 : subBlock (p ++ aggLineOld ++ q) = p ++ aggLineOld ++ q := subBlock_id_of_noMatch h1
  have s2 : replaceAll featLineOld featLineNew (p ++ aggLineOld ++ q) = p ++ aggLineOld ++ q :=
    replaceAll_id _ h2
  have s3 : replaceAll aggLineOld aggLineNew (p ++ aggLineOld ++ q) = p ++ aggLineNew ++ q := by
    rw [replaceAll_mid aggLineOld aggLineNew (by decide) p q h3, replaceAll_id _ h4]
  have har : afterReplacements (p ++ aggLineOld ++ q) = p ++ aggLineNew ++ q := by
    simp only [afterReplacements, s1, s2, s3]
  show ensureDefault (afterReplacements (p ++ aggLineOld ++ q)) = p ++ aggLineNew ++ q
  rw [har]
  have hocc : occursB featLineNew (p ++ aggLineNew ++ q) = true := by
    rcases h5 with h | h
    · exact occursB_append_right _ _ _ (occursB_append_right _ _ _ h)
    · exact occursB_append_left _ _ _ h
  simp only [ensureDefault, hocc, if_true]

/-- Witness for C7: the aggregate line followed by the empty-list feature
line is rewritten in place. -/
theorem agg_replace_exact_witness :
    mainTransform (aggLineOld ++ '\n' :: featLineNew ++ ('\n' :: [])) = aggLineNew ++ '\n' :: featLineNew ++ ('\n' :: []) := by
  have h := agg_replace_exact [] ('\n' :: (featLineNew ++ ('\n' :: []))) (by decide) (by decide) (by decide) (by decide) (Or.inr (by decide))
  simpa using h

/-- C8 (confirmed): the run exits with status 0 exactly when reading and
writing the manifest both succeed; a missing manifest ends the run with a
nonzero status, no file created or written, and nothing printed. -/
theorem exit_status_spec :
    (∀ (f : Option (List Char)) (w : Bool), (runScript f w).1 = 0 ↔ (f ≠ none ∧ w = true)) ∧
    (∀ w : Bool, runScript none w = (1, none, none)) := by
  constructor
  · intro f w
    cases f <;> cases w <;> simp [runScript]
  · intro w
    rfl

/-- C9 (confirmed): the ensure-default step inserts only by replacing the
rewritten aggregate line; a buffer lacking both the empty-list feature line
and that aggregate line after the earlier steps is left unchanged, and the
written manifest still lacks the empty-list feature line. -/
theorem ensure_default_requires_agg (c : List Char)
    (h1 : occursB featLineNew (afterReplacements c) = false)
    (h2 : occursB aggLineNew (afterReplacements c) = false) :
    mainTransform c = afterReplacements c ∧ occursB featLineNew (mainTransform c) = false := by
  have hT : mainTransform c = afterReplacements c := by
    simp [mainTransform, ensureDefault, h1, replaceAll_id _ h2]
  exact ⟨hT, by rw [hT]; exact h1⟩

/-- Witness for C9: a manifest with neither line passes through without
gaining the empty-list feature line. -/
theorem ensure_default_requires_agg_witness :
    mainTransform (("hello2\n").data) = afterReplacements (("hello2\n").data) ∧
    occursB featLineNew (mainTransform (("hello2\n").data)) = false :=
  ensure_default_requires_agg _ (by decide) (by decide)

/-- C10 (confirmed): the rewritten content and the printed line are a pure
function of the input content alone; the script directory, the only
environment input, never changes them, so identical inputs give identical
outputs and identical stdout. -/
theorem rewriter_deterministic :
    ∀ (d1 d2 c : List Char), runWithEnv d1 c = runWithEnv d2 c := by
  intro d1 d2 c
  rfl
